import Mathlib

/-!
Verification development for the realtime text-to-speech pacing bridge
(`src/components/DatabaseBridge.tsx` and the two bridge variants in
`src/unnamed/part_000`).

JavaScript strings are modelled as `List Char` (`Str`), so that the string
operations the bridge uses (`trim`, `split(/\r?\n+/)`, `split(/\s+/)`, the
sentence-matching regex, concatenation, `length`) become executable list
functions, and machine-checkable by `decide` on concrete inputs.
Numeric delays (JS floating point) are modelled over `ℚ`; `Math.random()`
values are supplied as oracle parameters.
-/

/-- JavaScript strings, modelled as lists of characters. -/
abbrev Str := List Char

/-- One step of `String.prototype.trim`: drop leading whitespace. -/
def trimL (s : Str) : Str := s.dropWhile Char.isWhitespace

/-- Model of `String.prototype.trim`: drop trailing whitespace (via the two
reversals), then leading whitespace. -/
def trim (s : Str) : Str := trimL ((trimL s.reverse).reverse)

/-- The non-whitespace content of a string, used to state that segmentation
preserves content up to whitespace. -/
def noWs (s : Str) : Str := s.filter (fun c => !c.isWhitespace)

/-- Helper for the split models: prepend a character to the first piece. -/
def consHead (c : Char) : List Str → List Str
  | [] => [[c]]
  | p :: ps => (c :: p) :: ps

/-- Model of `text.split(/\r?\n+/)` from the paragraph-mode `segmentText`
(`src/unnamed/part_000`).  The scan is a state machine: the flag is `true`
while absorbing the `\n+` tail of a separator that has already been matched.
A separator match is either `'\n'` (optionally preceded by `'\r'`) followed
by further `'\n'`s; a lone `'\r'` is not a separator, and a fresh `\r\n`
immediately after an absorbed run starts a new match (producing an empty
piece), exactly as the JS regex scan does. -/
def splitNlA : Str → Bool → List Str
  | [], _ => [[]]
  | '\n' :: rest, true => splitNlA rest true
  | '\n' :: rest, false => [] :: splitNlA rest true
  | '\r' :: '\n' :: rest, _ => [] :: splitNlA rest true
  | c :: rest, _ => consHead c (splitNlA rest false)

/-- Model of `text.split(/\r?\n+/)`. -/
def splitNlJS (cs : Str) : List Str := splitNlA cs false

/-- Paragraph-mode `segmentText` (`src/unnamed/part_000`):
`if (!text) return []; return text.split(/\r?\n+/).map(t => t.trim()).filter(t => t.length > 0)`. -/
def segmentTextP (text : Str) : List Str :=
  if text = [] then []
  else ((splitNlJS text).map trim).filter (fun t => t ≠ [])

/-- Model of `rawText.split(/\s+/)`, used for the word count in both drain
loops.  Same state-machine shape as `splitNlA`, with a separator being any
maximal run of whitespace (a leading or trailing run produces an empty
piece, as in JS). -/
def splitWsA : Str → Bool → List Str
  | [], _ => [[]]
  | c :: rest, m =>
    if c.isWhitespace then
      if m then splitWsA rest true else [] :: splitWsA rest true
    else consHead c (splitWsA rest false)

/-- Model of `rawText.split(/\s+/).length`. -/
def wordCount (raw : Str) : Nat := (splitWsA raw false).length

/-- Sentence terminator characters of the fallback regex
`[^.!?]+[.!?]+["']?|[^.!?]+$` in the sentence-mode `segmentText`
(`src/components/DatabaseBridge.tsx`). -/
def isTerm (c : Char) : Bool := c == '.' || c == '!' || c == '?'

/-- Optional closing quote accepted by the fallback regex after the
terminator run. -/
def isQuote (c : Char) : Bool := c == '"' || c == '\''

/-- Model of `text.match(/[^.!?]+[.!?]+["']?|[^.!?]+$/g)` as a left-to-right
scan.  The state is `none` between matches, `some (acc, false)` while the
`[^.!?]+` run of a match is being collected (in reverse) and
`some (acc, true)` while its `[.!?]+` run is being collected.  A terminator
character seen between matches cannot start either alternative, so it is
skipped; a match that reaches the end of the input is the first alternative
without its optional quote, or the second alternative `[^.!?]+$`. -/
def msA : Str → Option (Str × Bool) → List Str
  | [], none => []
  | [], some (acc, _) => [acc.reverse]
  | c :: rest, none =>
    if isTerm c then msA rest none
    else msA rest (some ([c], false))
  | c :: rest, some (acc, false) =>
    if isTerm c then msA rest (some (c :: acc, true))
    else msA rest (some (c :: acc, false))
  | c :: rest, some (acc, true) =>
    if isTerm c then msA rest (some (c :: acc, true))
    else if isQuote c then (c :: acc).reverse :: msA rest none
    else acc.reverse :: msA rest (some ([c], false))

/-- The matches of the fallback sentence regex over the input. -/
def matchSentences (cs : Str) : List Str := msA cs none

/-- `text.match(...) || [text]`: when the regex finds no match (JS returns
`null`), the whole text is used as the single sentence. -/
def sentencesOf (text : Str) : List Str :=
  let m := matchSentences text
  if m = [] then [text] else m

/-- The sentence-grouping loop of the sentence-mode `segmentText`
(`src/components/DatabaseBridge.tsx`, lines 39-62): the for-loop over
`sentences` with mutable `chunks`, `currentChunk`, `sentenceCount`, followed
by the final flush of a non-empty trailing chunk. -/
def chunkGo (chunks : List Str) (currentChunk : Str) (sentenceCount : Nat) :
    List Str → List Str
  | [] => if trim currentChunk ≠ [] then chunks ++ [trim currentChunk] else chunks
  | sentence :: rest =>
    let cleanSentence := trim sentence
    if cleanSentence = [] then chunkGo chunks currentChunk sentenceCount rest
    else
      let cur := if currentChunk ≠ [] then currentChunk ++ ' ' :: cleanSentence
                 else currentChunk ++ cleanSentence
      let n := sentenceCount + 1
      if (2 ≤ n ∧ 150 < cur.length) ∨ 3 ≤ n ∨ 250 < cur.length then
        chunkGo (chunks ++ [trim cur]) [] 0 rest
      else chunkGo chunks cur n rest

/-- The chunking pass applied to an already-computed sentence list (the
`Intl.Segmenter` branch supplies the list externally; the fallback branch
supplies `sentencesOf`). -/
def chunkSentences (sentences : List Str) : List Str := chunkGo [] [] 0 sentences

/-- Sentence-mode `segmentText` (`src/components/DatabaseBridge.tsx`) on the
regex-fallback branch: `if (!text) return []`, split into sentences, group
into chunks. -/
def segmentText (text : Str) : List Str :=
  if text = [] then [] else chunkSentences (sentencesOf text)

/-- The `voiceStyle` setting read by the drain loops. -/
inductive Style
  | neutral
  | breathy
  | dramatic
  | natural
deriving DecidableEq

/-- Stage-direction wrapping of a segment
(`src/components/DatabaseBridge.tsx`, lines 108-113): breathy and dramatic
styles get a prefix and a suffix, the other styles pass the text through. -/
def applyStyle : Style → Str → Str
  | Style.breathy, raw => "(soft inhale) ".data ++ raw ++ " ... (pause)".data
  | Style.dramatic, raw => "(slowly) ".data ++ raw ++ " ... (long pause)".data
  | _, raw => raw

/-- Style buffer base of the sentence-variant drain loop
(`src/components/DatabaseBridge.tsx`, lines 137-139): default 2000,
natural 1000, dramatic 5000. -/
def bufS : Style → ℚ
  | Style.natural => 1000
  | Style.dramatic => 5000
  | _ => 2000

/-- Inter-segment delay of the sentence-variant drain loop
(`src/components/DatabaseBridge.tsx`, lines 133-142):
`readTime = (wordCount / 2.8) * 1000`,
`totalDelay = readTime + (bufferBase + Math.random() * 1000)`, where `j` is
the oracle value of `Math.random()`. -/
def delayS (style : Style) (raw : Str) (j : ℚ) : ℚ :=
  ((wordCount raw : ℚ) / 2.8) * 1000 + (bufS style + j * 1000)

/-- The throat-clear marker segment of the paragraph-with-markers variant
(`src/unnamed/part_000`, first file). -/
def ctMark : Str := "(clears throat)".data

/-- Style buffer base of the paragraph-variant drain loops
(`src/unnamed/part_000`): default 1500, natural 1000, dramatic 3000. -/
def bufP : Style → ℚ
  | Style.natural => 1000
  | Style.dramatic => 3000
  | _ => 1500

/-- Inter-segment delay of the paragraph-with-markers drain loop
(`src/unnamed/part_000`, first file, lines 100-118): a fixed 1500 for the
marker segment, otherwise `Math.min(5000, readTime * 0.5) + bufferBase`
with `readTime = (wordCount / 3.0) * 1000`. -/
def delayP (style : Style) (raw : Str) : ℚ :=
  if raw = ctMark then 1500
  else min 5000 ((((wordCount raw : ℚ) / 3) * 1000) * 0.5) + bufP style

/-- The per-iteration environment of a drain loop: the gate status read at
the top of the iteration (`client.status !== 'connected'`), the live
`voiceStyleRef.current`, whether `client.send` returns normally (`false`
models a thrown exception), and the `Math.random()` value. -/
structure Tick where
  conn : Bool
  style : Style
  sendOk : Bool
  rand : ℚ
deriving DecidableEq

/-- Result of a (bounded) run of a drain loop: the successfully sent
scripted texts in order, the delay awaited after each send, the queue left
behind, and whether the run ended in the `catch` branch. -/
structure DrainOut where
  sent : List Str
  delays : List ℚ
  queue : List Str
  errored : Bool
deriving DecidableEq

/-- The sentence-variant `processQueueLoop` body
(`src/components/DatabaseBridge.tsx`, lines 97-146), one `Tick` consumed per
`while` iteration.  Iterations: stop when the queue is empty (or when the
supplied tick list runs out, which models observing only that many
iterations); abort keeping the whole queue if the gate is closed; peek the
head, wrap it with the current style; if the wrapped text trims to nothing,
`shift` and `continue`; otherwise send it (a send that throws ends the run
in the `catch` with the head still queued), `shift`, and await the computed
delay.  The `try/catch/finally` of the source is modelled by the total
result: `errored` records that the `catch` branch ran. -/
def drainLoopS (ticks : List Tick) (q : List Str) : DrainOut :=
  match q with
  | [] => ⟨[], [], [], false⟩
  | raw :: rest =>
    match ticks with
    | [] => ⟨[], [], raw :: rest, false⟩
    | t :: ts =>
      if t.conn = false then ⟨[], [], raw :: rest, false⟩
      else
        let scripted := applyStyle t.style raw
        if trim scripted = [] then drainLoopS ts rest
        else if t.sendOk = false then ⟨[], [], raw :: rest, true⟩
        else
          let out := drainLoopS ts rest
          ⟨scripted :: out.sent, delayS t.style raw t.rand :: out.delays,
            out.queue, out.errored⟩

/-- The paragraph-with-markers `processQueueLoop` body
(`src/unnamed/part_000`, first file, lines 59-122): identical loop shape,
except that the `(clears throat)` marker is passed through without style
wrapping and gets the fixed marker delay. -/
def drainLoopP (ticks : List Tick) (q : List Str) : DrainOut :=
  match q with
  | [] => ⟨[], [], [], false⟩
  | raw :: rest =>
    match ticks with
    | [] => ⟨[], [], raw :: rest, false⟩
    | t :: ts =>
      if t.conn = false then ⟨[], [], raw :: rest, false⟩
      else
        let scripted := if raw = ctMark then raw else applyStyle t.style raw
        if trim scripted = [] then drainLoopP ts rest
        else if t.sendOk = false then ⟨[], [], raw :: rest, true⟩
        else
          let out := drainLoopP ts rest
          ⟨scripted :: out.sent, delayP t.style raw :: out.delays,
            out.queue, out.errored⟩

/-- The texts a complete, connected, error-free sentence-variant drain of
`q` sends, in order: each queue element in order, style-wrapped, with
elements that wrap to whitespace discarded. -/
def dispatchAllS (style : Style) (q : List Str) : List Str :=
  q.filterMap (fun raw =>
    if trim (applyStyle style raw) = [] then none
    else some (applyStyle style raw))

/-- A tick of an uninterrupted run: connected, send succeeds. -/
def okTick (style : Style) (j : ℚ) : Tick := ⟨true, style, true, j⟩

/-- Observable bridge state mutated by `processNewData` in the sentence
variant: `lastProcessedIdRef`, the transcript log written through `addTurn`,
and `queueRef`. -/
structure Turn where
  role : Str
  text : Str
  sourceText : Str
  isFinal : Bool
deriving DecidableEq

/-- A row of the watched `transcripts` table; only the fields the ingestion
path reads are modelled. -/
structure Transcript where
  id : Str
  full_transcript_text : Str
deriving DecidableEq

structure BridgeState where
  lastProcessedId : Option Str
  turns : List Turn
  queue : List Str
deriving DecidableEq

/-- The transcript-log entry `processNewData` appends:
`addTurn({role: 'system', text: source, sourceText: source, isFinal: true})`. -/
def mkTurn (source : Str) : Turn := ⟨"system".data, source, source, true⟩

/-- Sentence-variant `processNewData` (`src/components/DatabaseBridge.tsx`,
lines 159-190): reject empty text, no-op when the id equals
`lastProcessedIdRef.current`, otherwise record the id, append the display
turn, segment the source and append the segments to the queue tail.  (A
falsy `full_transcript_text` — `null` or `""` — is modelled as `[]`.) -/
def processNewData (data : Transcript) (s : BridgeState) : BridgeState :=
  if data.full_transcript_text = [] then s
  else if s.lastProcessedId = some data.id then s
  else
    let segments := segmentText data.full_transcript_text
    { lastProcessedId := some data.id,
      turns := s.turns ++ [mkTurn data.full_transcript_text],
      queue := if segments ≠ [] then s.queue ++ segments else s.queue }

/-- Bridge state of the paragraph-with-markers variant, which additionally
holds the session-global `paragraphCountRef`. -/
structure BridgeStateP where
  lastProcessedId : Option Str
  turns : List Turn
  queue : List Str
  paragraphCount : Nat
deriving DecidableEq

/-- The `segments.forEach` enqueue of the paragraph-with-markers variant
(`src/unnamed/part_000`, first file, lines 162-172): push each segment,
increment the session-global paragraph counter, and push the
`(clears throat)` marker whenever the counter is positive and divisible
by 3. -/
def pushWithMarkers (queue : List Str) (count : Nat) : List Str → List Str × Nat
  | [] => (queue, count)
  | seg :: rest =>
    let queue := queue ++ [seg]
    let count := count + 1
    let queue := if 0 < count ∧ count % 3 = 0 then queue ++ [ctMark] else queue
    pushWithMarkers queue count rest

/-- Paragraph-with-markers `processNewData` (`src/unnamed/part_000`, first
file, lines 135-176). -/
def processNewDataP (data : Transcript) (s : BridgeStateP) : BridgeStateP :=
  if data.full_transcript_text = [] then s
  else if s.lastProcessedId = some data.id then s
  else
    let segments := segmentTextP data.full_transcript_text
    let qc := if segments ≠ [] then pushWithMarkers s.queue s.paragraphCount segments
              else (s.queue, s.paragraphCount)
    { lastProcessedId := some data.id,
      turns := s.turns ++ [mkTurn data.full_transcript_text],
      queue := qc.1,
      paragraphCount := qc.2 }

/-- Chunking loop as the words of claim C3 state it: flush as soon as the
chunk has at least 2 sentences and AT LEAST 150 characters (the code
requires MORE than 150), or at least 3 sentences, or more than 250
characters.  Used only to compare the claim against `chunkGo`. -/
def claimChunkGo (chunks : List Str) (currentChunk : Str) (sentenceCount : Nat) :
    List Str → List Str
  | [] => if trim currentChunk ≠ [] then chunks ++ [trim currentChunk] else chunks
  | sentence :: rest =>
    let cleanSentence := trim sentence
    if cleanSentence = [] then claimChunkGo chunks currentChunk sentenceCount rest
    else
      let cur := if currentChunk ≠ [] then currentChunk ++ ' ' :: cleanSentence
                 else currentChunk ++ cleanSentence
      let n := sentenceCount + 1
      if (2 ≤ n ∧ 150 ≤ cur.length) ∨ 3 ≤ n ∨ 250 < cur.length then
        claimChunkGo (chunks ++ [trim cur]) [] 0 rest
      else claimChunkGo chunks cur n rest

/-- The claim-C3 chunker on a sentence list. -/
def claimChunkSentences (sentences : List Str) : List Str := claimChunkGo [] [] 0 sentences

/-- Join a group of sentences with single spaces, the way the chunking loop
builds `currentChunk` from its clean sentences. -/
def joinSp : List Str → Str
  | [] => []
  | [s] => s
  | s :: rest => s ++ ' ' :: joinSp rest

/-- The amended-claim flush condition, exactly the code's: at least 2
sentences and more than 150 characters, or at least 3 sentences, or more
than 250 characters. -/
def flushA (n len : Nat) : Prop := (2 ≤ n ∧ 150 < len) ∨ 3 ≤ n ∨ 250 < len

instance (n len : Nat) : Decidable (flushA n len) := by
  unfold flushA; infer_instance

/-- Greedy grouping of clean sentences, written from the amended claim's
words: accumulate consecutive sentences into the current group and close the
group as soon as `flushA` holds; a non-empty trailing group is kept. -/
def groupGo (cur : List Str) : List Str → List (List Str)
  | [] => if cur = [] then [] else [cur]
  | s :: rest =>
    let cur2 := cur ++ [s]
    if flushA cur2.length (joinSp cur2).length then cur2 :: groupGo [] rest
    else groupGo cur2 rest

/-- The clean sentences the chunking loop actually consumes: each sentence
trimmed, whitespace-only sentences skipped. -/
def cleanOf (sentences : List Str) : List Str :=
  (sentences.map trim).filter (fun t => t ≠ [])

/-- Marker placement as the words of claim C4 state it: after each segment
whose cumulative ordinal (starting from `n` segments already counted) is
divisible by 3, the marker follows immediately. -/
def withMarkers (n : Nat) : List Str → List Str
  | [] => []
  | seg :: rest =>
    if (n + 1) % 3 = 0 then seg :: ctMark :: withMarkers (n + 1) rest
    else seg :: withMarkers (n + 1) rest

/-- A string is clean when it neither starts nor ends with whitespace. -/
def cleanStr (s : Str) : Prop :=
  (∀ c, s.head? = some c → c.isWhitespace = false) ∧
  (∀ c, s.reverse.head? = some c → c.isWhitespace = false)

/-- The input a matcher state still owes to the output: the collected
characters of the match in progress. -/
def stInput : Option (Str × Bool) → Str
  | none => []
  | some (acc, _) => acc.reverse

/-- The delays of a complete, connected, error-free sentence-variant drain
of `q` with `Math.random()` constantly `j`. -/
def delaysAllS (style : Style) (j : ℚ) (q : List Str) : List ℚ :=
  q.filterMap (fun raw =>
    if trim (applyStyle style raw) = [] then none
    else some (delayS style raw j))

/-- The texts a complete, connected, error-free paragraph-variant drain of
`q` sends: the marker passes through unwrapped, other segments are
style-wrapped; elements that wrap to whitespace are discarded. -/
def dispatchAllP (style : Style) (q : List Str) : List Str :=
  q.filterMap (fun raw =>
    let scripted := if raw = ctMark then raw else applyStyle style raw
    if trim scripted = [] then none else some scripted)

/-- The delays of a complete, connected, error-free paragraph-variant drain
of `q`. -/
def delaysAllP (style : Style) (q : List Str) : List ℚ :=
  q.filterMap (fun raw =>
    let scripted := if raw = ctMark then raw else applyStyle style raw
    if trim scripted = [] then none else some (delayP style raw))

/-- A segment whose word count is `n + 1`: `n + 1` copies of `a` separated
by single spaces.  Used to exhibit unboundedly long segments. -/
def rawOfWords : Nat → Str
  | 0 => ['a']
  | n + 1 => 'a' :: ' ' :: rawOfWords n

/-- The observable state around one `processQueueLoop()` call: the queue,
the `isProcessingRef` re-entrancy flag, and how many errors
`console.error` has logged. -/
structure SysState where
  queue : List Str
  isProcessing : Bool
  errorLogged : Nat
deriving DecidableEq

/-- One `processQueueLoop()` call of the sentence variant
(`src/components/DatabaseBridge.tsx`, lines 91-152): a no-op while already
draining; otherwise run the loop; the `finally` clears `isProcessingRef`
on every exit path, and the `catch` logs the error.  Returns the state
after the call together with the sent texts and the delays. -/
def processQueueLoopS (ticks : List Tick) (s : SysState) :
    SysState × List Str × List ℚ :=
  if s.isProcessing then (s, [], [])
  else
    let out := drainLoopS ticks s.queue
    (⟨out.queue, false, s.errorLogged + (if out.errored then 1 else 0)⟩,
      out.sent, out.delays)

theorem noWs_append (a b : Str) : noWs (a ++ b) = noWs a ++ noWs b := by
  simp [noWs, List.filter_append]

theorem noWs_reverse (s : Str) : noWs s.reverse = (noWs s).reverse := by
  simp [noWs, List.filter_reverse]

theorem noWs_trimL (s : Str) : noWs (trimL s) = noWs s := by
  induction s with
  | nil => rfl
  | cons c t ih =>
    by_cases h : c.isWhitespace
    · simp [trimL, List.dropWhile_cons, h, noWs] at ih ⊢
      exact ih
    · simp [trimL, List.dropWhile_cons, h]

theorem noWs_trim (s : Str) : noWs (trim s) = noWs s := by
  have h1 : noWs ((trimL s.reverse).reverse) = noWs s := by
    rw [noWs_reverse, noWs_trimL, noWs_reverse, List.reverse_reverse]
  rw [trim, noWs_trimL, h1]

theorem trimL_head (s : Str) (c : Char) (h : (trimL s).head? = some c) :
    c.isWhitespace = false := by
  induction s with
  | nil => simp [trimL] at h
  | cons a t ih =>
    by_cases ha : a.isWhitespace
    · simp [trimL, List.dropWhile_cons, ha] at h ⊢
      exact ih h
    · simp [trimL, List.dropWhile_cons, ha] at h
      subst h
      simpa using ha

theorem trimL_suffix (s : Str) : trimL s <:+ s := List.dropWhile_suffix _

theorem clean_trim (s : Str) : cleanStr (trim s) := by
  constructor
  · intro c hc
    exact trimL_head _ _ hc
  · intro c hc
    obtain ⟨t, ht⟩ := trimL_suffix ((trimL s.reverse).reverse)
    rcases hA : (trim s).reverse with _ | ⟨d, u⟩
    · rw [hA] at hc; simp at hc
    · rw [hA] at hc
      simp only [List.head?_cons, Option.some.injEq] at hc
      subst hc
      apply trimL_head s.reverse d
      have hy : trimL s.reverse = (trim s).reverse ++ t.reverse := by
        have := congrArg List.reverse ht
        simpa [trim, List.reverse_append] using this.symm
      rw [hy, hA]
      simp

theorem trim_eq_self (s : Str) (h : cleanStr s) : trim s = s := by
  rcases s with _ | ⟨c, t⟩
  · rfl
  · have hc : c.isWhitespace = false := h.1 c (by simp)
    rcases hr : (c :: t).reverse with _ | ⟨d, u⟩
    · exact absurd (congrArg List.length hr) (by simp)
    · have hd : d.isWhitespace = false := h.2 d (by rw [hr]; simp)
      have h1 : trimL ((c :: t).reverse) = (c :: t).reverse := by
        rw [hr]; simp [trimL, List.dropWhile_cons, hd]
      rw [trim, h1, List.reverse_reverse]
      simp [trimL, List.dropWhile_cons, hc]

theorem trim_idem (s : Str) : trim (trim s) = trim s :=
  trim_eq_self _ (clean_trim s)

theorem noWs_eq_nil_of_trim (s : Str) (h : trim s = []) : noWs s = [] := by
  rw [← noWs_trim, h]; rfl

theorem trim_eq_nil_of_noWs (s : Str) (h : noWs s = []) : trim s = [] := by
  have hall : ∀ c ∈ s, c.isWhitespace := by
    intro c hc
    by_contra hw
    have : c ∈ noWs s := by
      simp [noWs, List.mem_filter, hc, hw]
    rw [h] at this
    simp at this
  have hrev : ∀ c ∈ s.reverse, c.isWhitespace := by
    intro c hc; exact hall c (List.mem_reverse.mp hc)
  have h1 : trimL s.reverse = [] := by
    simp only [trimL]
    exact List.dropWhile_eq_nil_iff.mpr (by intro c hc; exact hrev c hc)
  rw [trim, h1]
  rfl

theorem consHead_flatten (c : Char) (L : List Str) :
    (consHead c L).flatten = c :: L.flatten := by
  cases L <;> simp [consHead]

theorem splitNlA_flatten_noWs (cs : Str) (m : Bool) :
    noWs (splitNlA cs m).flatten = noWs cs := by
  induction cs, m using splitNlA.induct with
  | case1 m => simp [splitNlA]
  | case2 rest ih =>
    rw [splitNlA.eq_2, ih]
    simp [noWs, List.filter_cons]
  | case3 rest ih =>
    rw [splitNlA.eq_3]
    simp only [List.flatten_cons, List.nil_append]
    rw [ih]
    simp [noWs, List.filter_cons]
  | case4 rest x ih =>
    rw [splitNlA.eq_4]
    simp only [List.flatten_cons, List.nil_append]
    rw [ih]
    simp [noWs, List.filter_cons]
  | case5 c rest x h1 h2 h3 ih =>
    rw [splitNlA.eq_5 x c rest h3 h1 h2, consHead_flatten]
    by_cases hw : c.isWhitespace <;>
      simpa [noWs, List.filter_cons, hw] using ih

theorem flatten_filter_ne_nil (L : List Str) :
    (L.filter (fun t => t ≠ [])).flatten = L.flatten := by
  induction L with
  | nil => rfl
  | cons p ps ih =>
    by_cases hp : p = []
    · subst hp; simpa using ih
    · simp only [List.filter_cons, List.flatten_cons]
      rw [if_pos (by simpa using hp)]
      simp only [ne_eq, decide_not, List.flatten_cons] at ih ⊢
      rw [ih]

theorem flatten_map_trim_noWs (L : List Str) :
    noWs ((L.map trim).flatten) = noWs L.flatten := by
  induction L with
  | nil => rfl
  | cons p ps ih =>
    simp [noWs_append, noWs_trim, ih]

theorem segmentTextP_noWs (t : Str) : noWs (segmentTextP t).flatten = noWs t := by
  by_cases h : t = []
  · subst h; rfl
  · rw [segmentTextP, if_neg h, flatten_filter_ne_nil, flatten_map_trim_noWs,
      splitNlJS, splitNlA_flatten_noWs]

theorem segmentTextP_mem (t : Str) (s : Str) (hs : s ∈ segmentTextP t) :
    trim s = s ∧ s ≠ [] := by
  by_cases h : t = []
  · subst h; simp [segmentTextP] at hs
  · rw [segmentTextP, if_neg h] at hs
    rw [List.mem_filter] at hs
    obtain ⟨hmem, hne⟩ := hs
    obtain ⟨x, _, hx⟩ := List.mem_map.mp hmem
    refine ⟨?_, by simpa using hne⟩
    rw [← hx, trim_idem]

theorem msA_flatten_sublist (cs : Str) (st : Option (Str × Bool)) :
    List.Sublist (msA cs st).flatten (stInput st ++ cs) := by
  induction cs, st using msA.induct with
  | case1 => simp [msA, stInput]
  | case2 acc b => simp [msA, stInput]
  | case3 c rest hc ih =>
    rw [msA, if_pos hc]
    simp only [stInput, List.nil_append] at ih ⊢
    exact ih.cons c
  | case4 c rest hc ih =>
    rw [msA, if_neg hc]
    simpa [stInput] using ih
  | case5 c rest acc hc ih =>
    rw [msA, if_pos hc]
    simpa [stInput, List.reverse_cons, List.append_assoc] using ih
  | case6 c rest acc hc ih =>
    rw [msA, if_neg hc]
    simpa [stInput, List.reverse_cons, List.append_assoc] using ih
  | case7 c rest acc hc ih =>
    rw [msA, if_pos hc]
    simpa [stInput, List.reverse_cons, List.append_assoc] using ih
  | case8 c rest acc hc hq ih =>
    rw [msA, if_neg hc, if_pos hq]
    simp only [stInput, List.nil_append] at ih
    simp only [List.flatten_cons, stInput, List.reverse_cons]
    have h2 := ih.append_left (acc.reverse ++ [c])
    simpa [List.append_assoc] using h2
  | case9 c rest acc hc hq ih =>
    rw [msA, if_neg hc, if_neg hq]
    simp only [stInput] at ih
    simp only [List.flatten_cons, stInput]
    have h2 := ih.append_left acc.reverse
    simpa [List.append_assoc] using h2

theorem msA_flatten_filter (cs : Str) (st : Option (Str × Bool)) :
    (msA cs st).flatten.filter (fun c => !isTerm c)
      = (stInput st ++ cs).filter (fun c => !isTerm c) := by
  induction cs, st using msA.induct with
  | case1 => simp [msA, stInput]
  | case2 acc b => simp [msA, stInput]
  | case3 c rest hc ih =>
    rw [msA, if_pos hc]
    simp only [stInput, List.nil_append] at ih ⊢
    rw [ih, List.filter_cons, if_neg (by simp [hc])]
  | case4 c rest hc ih =>
    rw [msA, if_neg hc]
    simpa [stInput] using ih
  | case5 c rest acc hc ih =>
    rw [msA, if_pos hc]
    simpa [stInput, List.reverse_cons, List.append_assoc] using ih
  | case6 c rest acc hc ih =>
    rw [msA, if_neg hc]
    simpa [stInput, List.reverse_cons, List.append_assoc] using ih
  | case7 c rest acc hc ih =>
    rw [msA, if_pos hc]
    simpa [stInput, List.reverse_cons, List.append_assoc] using ih
  | case8 c rest acc hc hq ih =>
    rw [msA, if_neg hc, if_pos hq]
    simp only [stInput, List.nil_append] at ih
    simp [List.flatten_cons, List.filter_append, List.filter_cons, ih,
      List.append_assoc, stInput]
  | case9 c rest acc hc hq ih =>
    rw [msA, if_neg hc, if_neg hq]
    simp only [stInput] at ih
    simp [List.flatten_cons, List.filter_append, List.filter_cons, ih,
      List.append_assoc, stInput]

theorem sentencesOf_flatten_sublist (t : Str) :
    List.Sublist (sentencesOf t).flatten t := by
  rw [sentencesOf]
  by_cases h : matchSentences t = []
  · simp [h]
  · rw [if_neg h]
    simpa [stInput] using msA_flatten_sublist t none

theorem sentencesOf_flatten_filter (t : Str) :
    (sentencesOf t).flatten.filter (fun c => !isTerm c)
      = t.filter (fun c => !isTerm c) := by
  rw [sentencesOf]
  by_cases h : matchSentences t = []
  · simp [h]
  · rw [if_neg h]
    simpa [stInput] using msA_flatten_filter t none

theorem joinSp_cons (s : Str) (rest : List Str) (h : rest ≠ []) :
    joinSp (s :: rest) = s ++ ' ' :: joinSp rest :=
  joinSp.eq_3 s rest (fun he => h he)

theorem joinSp_ne_nil (g : List Str) (hg : g ≠ []) (h : ∀ x ∈ g, x ≠ []) :
    joinSp g ≠ [] := by
  rcases g with _ | ⟨x, rest⟩
  · exact absurd rfl hg
  · rcases rest with _ | ⟨y, r⟩
    · exact h x (by simp)
    · rw [joinSp_cons x (y :: r) (by simp)]
      have hx := h x (by simp)
      rcases x with _ | ⟨c, t⟩
      · exact absurd rfl hx
      · simp

theorem joinSp_snoc (g : List Str) (s : Str) (hg : g ≠ []) :
    joinSp (g ++ [s]) = joinSp g ++ ' ' :: s := by
  induction g with
  | nil => exact absurd rfl hg
  | cons x xs ih =>
    rcases xs with _ | ⟨y, r⟩
    · rfl
    · rw [List.cons_append, joinSp_cons x ((y :: r) ++ [s]) (by simp),
        joinSp_cons x (y :: r) (by simp), ih (by simp)]
      simp

theorem joinSp_head (g : List Str) (hcl : ∀ x ∈ g, cleanStr x ∧ x ≠ [])
    (c : Char) (hc : (joinSp g).head? = some c) : c.isWhitespace = false := by
  rcases g with _ | ⟨x, rest⟩
  · simp [joinSp] at hc
  · have hx := hcl x (by simp)
    have hx1 : x.head? = some c → c.isWhitespace = false := fun h => hx.1.1 c h
    rcases rest with _ | ⟨y, r⟩
    · exact hx1 hc
    · rw [joinSp_cons x (y :: r) (by simp)] at hc
      rcases hxe : x with _ | ⟨e, t⟩
      · exact absurd hxe hx.2
      · rw [hxe, List.cons_append, List.head?_cons] at hc
        apply hx1
        rw [hxe, List.head?_cons, hc]

theorem joinSp_last (g : List Str) (hcl : ∀ x ∈ g, cleanStr x ∧ x ≠ [])
    (c : Char) (hc : (joinSp g).reverse.head? = some c) :
    c.isWhitespace = false := by
  induction g using joinSp.induct with
  | case1 => simp [joinSp] at hc
  | case2 s => exact (hcl s (by simp)).1.2 c hc
  | case3 s rest hne ih =>
    rw [joinSp_cons s rest (fun h => hne h)] at hc
    have hrest : ∀ x ∈ rest, cleanStr x ∧ x ≠ [] := by
      intro x hx; exact hcl x (by simp [hx])
    have hj : joinSp rest ≠ [] := by
      apply joinSp_ne_nil rest (fun h => hne h)
      intro x hx; exact (hrest x hx).2
    rcases hr : (joinSp rest).reverse with _ | ⟨d, u⟩
    · exact absurd (by simpa using congrArg List.reverse hr) hj
    · apply ih hrest
      rw [hr]
      rw [List.reverse_append, List.reverse_cons, hr] at hc
      simpa using hc

theorem clean_joinSp (g : List Str) (hcl : ∀ x ∈ g, cleanStr x ∧ x ≠ []) :
    cleanStr (joinSp g) :=
  ⟨joinSp_head g hcl, joinSp_last g hcl⟩

theorem noWs_joinSp (g : List Str) : noWs (joinSp g) = noWs g.flatten := by
  induction g using joinSp.induct with
  | case1 => rfl
  | case2 s => simp [joinSp, noWs]
  | case3 s rest hne ih =>
    have h2 : noWs (' ' :: joinSp rest) = noWs (joinSp rest) := by
      simp [noWs, List.filter_cons]
    rw [joinSp_cons s rest (fun h => hne h), List.flatten_cons,
      noWs_append, noWs_append, h2, ih]

theorem groupGo_flatten (ss : List Str) (g : List Str) :
    (groupGo g ss).flatten = g ++ ss := by
  induction ss generalizing g with
  | nil =>
    rw [groupGo]
    by_cases hg : g = []
    · simp [hg]
    · rw [if_neg hg]; simp
  | cons s rest ih =>
    simp only [groupGo]
    by_cases hf : flushA (g ++ [s]).length (joinSp (g ++ [s])).length
    · rw [if_pos hf]
      simp [ih, List.append_assoc]
    · rw [if_neg hf]
      simp [ih, List.append_assoc]

theorem groupGo_sizes (ss : List Str) (g : List Str) (hg : g.length ≤ 2) :
    ∀ h ∈ groupGo g ss, h ≠ [] ∧ h.length ≤ 3 := by
  induction ss generalizing g with
  | nil =>
    intro h hh
    rw [groupGo] at hh
    by_cases hge : g = []
    · rw [if_pos hge] at hh; simp at hh
    · rw [if_neg hge] at hh
      simp only [List.mem_singleton] at hh
      subst hh
      exact ⟨hge, le_trans hg (by norm_num)⟩
  | cons s rest ih =>
    intro h hh
    simp only [groupGo] at hh
    by_cases hf : flushA (g ++ [s]).length (joinSp (g ++ [s])).length
    · rw [if_pos hf] at hh
      rcases List.mem_cons.mp hh with h1 | h2
      · subst h1
        refine ⟨by simp, ?_⟩
        simp only [List.length_append, List.length_singleton]
        omega
      · exact ih [] (by simp) h h2
    · rw [if_neg hf] at hh
      apply ih (g ++ [s]) _ h hh
      by_contra hlen
      exact hf (Or.inr (Or.inl (by omega)))

theorem groupGo_mem (ss : List Str) (g : List Str) (P : Str → Prop)
    (hgp : ∀ x ∈ g, P x) (hsp : ∀ x ∈ ss, P x) :
    ∀ h ∈ groupGo g ss, ∀ x ∈ h, P x := by
  induction ss generalizing g with
  | nil =>
    intro h hh
    rw [groupGo] at hh
    by_cases hge : g = []
    · rw [if_pos hge] at hh; simp at hh
    · rw [if_neg hge] at hh
      simp only [List.mem_singleton] at hh
      subst hh
      exact hgp
  | cons s rest ih =>
    intro h hh
    simp only [groupGo] at hh
    have hgs : ∀ x ∈ g ++ [s], P x := by
      intro x hx
      rcases List.mem_append.mp hx with h1 | h2
      · exact hgp x h1
      · rw [List.mem_singleton] at h2; subst h2; exact hsp x (by simp)
    have hrest : ∀ x ∈ rest, P x := fun x hx => hsp x (by simp [hx])
    by_cases hf : flushA (g ++ [s]).length (joinSp (g ++ [s])).length
    · rw [if_pos hf] at hh
      rcases List.mem_cons.mp hh with h1 | h2
      · subst h1; exact hgs
      · exact ih [] (by simp) hrest h h2
    · rw [if_neg hf] at hh
      exact ih (g ++ [s]) hgs hrest h hh

theorem cleanOf_cons_nil (sentence : Str) (rest : List Str)
    (hs : trim sentence = []) :
    cleanOf (sentence :: rest) = cleanOf rest := by
  simp [cleanOf, List.filter_cons, hs]

theorem cleanOf_cons (sentence : Str) (rest : List Str)
    (hs : trim sentence ≠ []) :
    cleanOf (sentence :: rest) = trim sentence :: cleanOf rest := by
  simp only [cleanOf, List.map_cons, List.filter_cons]
  rw [if_pos (by simpa using hs)]

theorem chunkGo_spec (ss : List Str) (chunks : List Str) (g : List Str)
    (hcl : ∀ x ∈ g, cleanStr x ∧ x ≠ []) (hlen : g.length ≤ 2) :
    chunkGo chunks (joinSp g) g.length ss
      = chunks ++ (groupGo g (cleanOf ss)).map joinSp := by
  induction ss generalizing chunks g with
  | nil =>
    rw [chunkGo]
    by_cases hg : g = []
    · subst hg
      simp [joinSp, trim, trimL, groupGo, cleanOf]
    · have hne : joinSp g ≠ [] :=
        joinSp_ne_nil g hg (fun x hx => (hcl x hx).2)
      rw [trim_eq_self _ (clean_joinSp g hcl), if_pos hne]
      have : cleanOf ([] : List Str) = [] := rfl
      rw [show cleanOf ([] : List Str) = [] from rfl, groupGo, if_neg hg]
      simp
  | cons sentence rest ih =>
    simp only [chunkGo]
    by_cases hs : trim sentence = []
    · rw [if_pos hs, cleanOf_cons_nil sentence rest hs]
      exact ih chunks g hcl hlen
    · rw [if_neg hs, cleanOf_cons sentence rest hs]
      have hcur : (if joinSp g ≠ [] then joinSp g ++ ' ' :: trim sentence
          else joinSp g ++ trim sentence) = joinSp (g ++ [trim sentence]) := by
        by_cases hg : g = []
        · subst hg
          rw [if_neg (by simp [joinSp])]
          simp [joinSp]
        · rw [if_pos (joinSp_ne_nil g hg (fun x hx => (hcl x hx).2)),
            joinSp_snoc g (trim sentence) hg]
      rw [hcur]
      have hcl2 : ∀ x ∈ g ++ [trim sentence], cleanStr x ∧ x ≠ [] := by
        intro x hx
        rcases List.mem_append.mp hx with h1 | h2
        · exact hcl x h1
        · rw [List.mem_singleton] at h2; subst h2
          exact ⟨clean_trim sentence, hs⟩
      have hglen : (g ++ [trim sentence]).length = g.length + 1 := by simp
      by_cases hf : flushA (g ++ [trim sentence]).length
          (joinSp (g ++ [trim sentence])).length
      · have hf2 : (2 ≤ g.length + 1 ∧ 150 < (joinSp (g ++ [trim sentence])).length)
            ∨ 3 ≤ g.length + 1 ∨ 250 < (joinSp (g ++ [trim sentence])).length := by
          rw [flushA, hglen] at hf
          exact hf
        rw [if_pos hf2]
        rw [trim_eq_self _ (clean_joinSp _ hcl2)]
        have hbase := ih (chunks ++ [joinSp (g ++ [trim sentence])]) []
          (by simp) (by simp)
        simp only [joinSp, List.length_nil] at hbase
        rw [hbase]
        rw [groupGo, if_pos hf]
        simp [List.append_assoc]
      · have hf2 : ¬ ((2 ≤ g.length + 1 ∧ 150 < (joinSp (g ++ [trim sentence])).length)
            ∨ 3 ≤ g.length + 1 ∨ 250 < (joinSp (g ++ [trim sentence])).length) := by
          rw [flushA, hglen] at hf
          exact hf
        rw [if_neg hf2]
        have hlen2 : (g ++ [trim sentence]).length ≤ 2 := by
          by_contra hx
          exact hf (Or.inr (Or.inl (by omega)))
        have hstep := ih chunks (g ++ [trim sentence]) hcl2 hlen2
        rw [hglen] at hstep
        rw [hstep]
        rw [groupGo, if_neg hf]

/-- The chunking loop equals the greedy grouping of the clean sentences. -/
theorem chunkSentences_eq_groups (ss : List Str) :
    chunkSentences ss = (groupGo [] (cleanOf ss)).map joinSp := by
  have h := chunkGo_spec ss [] [] (by simp) (by simp)
  simpa [chunkSentences, joinSp] using h

theorem flatten_map_joinSp_noWs (G : List (List Str)) :
    noWs ((G.map joinSp).flatten) = noWs G.flatten.flatten := by
  induction G with
  | nil => rfl
  | cons g gs ih =>
    simp only [List.map_cons, List.flatten_cons, noWs_append, noWs_joinSp, ih,
      List.flatten_append]

theorem chunkSentences_noWs (ss : List Str) :
    noWs (chunkSentences ss).flatten = noWs ss.flatten := by
  rw [chunkSentences_eq_groups, flatten_map_joinSp_noWs, groupGo_flatten]
  simp only [List.nil_append]
  rw [cleanOf, flatten_filter_ne_nil, flatten_map_trim_noWs]

theorem chunkSentences_mem (ss : List Str) (c : Str) (hc : c ∈ chunkSentences ss) :
    trim c = c ∧ c ≠ [] := by
  rw [chunkSentences_eq_groups] at hc
  obtain ⟨h, hh, rfl⟩ := List.mem_map.mp hc
  have hcl : ∀ x ∈ h, cleanStr x ∧ x ≠ [] := by
    refine groupGo_mem (cleanOf ss) [] (fun x => cleanStr x ∧ x ≠ [])
      (by simp) ?_ h hh
    intro x hx
    rw [cleanOf, List.mem_filter] at hx
    obtain ⟨hmem, hne⟩ := hx
    obtain ⟨y, _, rfl⟩ := List.mem_map.mp hmem
    exact ⟨clean_trim y, by simpa using hne⟩
  have hsz := groupGo_sizes (cleanOf ss) [] (by simp) h hh
  exact ⟨trim_eq_self _ (clean_joinSp h hcl),
    joinSp_ne_nil h hsz.1 (fun x hx => (hcl x hx).2)⟩

theorem segmentText_noWs_sublist (t : Str) :
    List.Sublist (noWs (segmentText t).flatten) (noWs t) := by
  by_cases h : t = []
  · subst h; simp [segmentText]
  · rw [segmentText, if_neg h, chunkSentences_noWs]
    exact (sentencesOf_flatten_sublist t).filter _

theorem segmentText_filter_keep (t : Str) :
    (noWs (segmentText t).flatten).filter (fun c => !isTerm c)
      = (noWs t).filter (fun c => !isTerm c) := by
  by_cases h : t = []
  · subst h; rfl
  · rw [segmentText, if_neg h, chunkSentences_noWs, noWs, noWs,
      List.filter_comm, sentencesOf_flatten_filter, ← List.filter_comm]

theorem applyStyle_trim_ne (style : Style) (raw : Str) (h : trim raw ≠ []) :
    trim (applyStyle style raw) ≠ [] := by
  cases style with
  | neutral => exact h
  | natural => exact h
  | breathy =>
    intro hx
    have h0 := noWs_eq_nil_of_trim _ hx
    simp only [applyStyle, noWs_append, List.append_eq_nil] at h0
    have hne : noWs "(soft inhale) ".data ≠ [] := by decide
    exact hne h0.1.1
  | dramatic =>
    intro hx
    have h0 := noWs_eq_nil_of_trim _ hx
    simp only [applyStyle, noWs_append, List.append_eq_nil] at h0
    have hne : noWs "(slowly) ".data ≠ [] := by decide
    exact hne h0.1.1

theorem drainLoopS_complete (q : List Str) (style : Style) (j : ℚ) :
    drainLoopS (List.replicate q.length (okTick style j)) q
      = ⟨dispatchAllS style q, delaysAllS style j q, [], false⟩ := by
  induction q with
  | nil => rfl
  | cons raw rest ih =>
    rw [List.length_cons, List.replicate_succ]
    simp only [drainLoopS, okTick]
    simp only [okTick] at ih
    rw [if_neg (by simp)]
    by_cases hskip : trim (applyStyle style raw) = []
    · rw [if_pos hskip, ih]
      simp [dispatchAllS, delaysAllS, List.filterMap_cons, hskip]
    · rw [if_neg hskip, if_neg (by simp), ih]
      simp [dispatchAllS, delaysAllS, List.filterMap_cons, hskip]

theorem drainLoopS_split (ticks : List Tick) (q : List Str) (style : Style)
    (hst : ∀ t ∈ ticks, t.style = style) :
    ∃ pre, q = pre ++ (drainLoopS ticks q).queue
      ∧ (drainLoopS ticks q).sent = dispatchAllS style pre := by
  induction q generalizing ticks with
  | nil => exact ⟨[], by simp [drainLoopS], by simp [drainLoopS, dispatchAllS]⟩
  | cons raw rest ih =>
    rcases ticks with _ | ⟨t, ts⟩
    · exact ⟨[], by simp [drainLoopS], by simp [drainLoopS, dispatchAllS]⟩
    · have hts : t.style = style := hst t (by simp)
      have hts2 : ∀ x ∈ ts, x.style = style := fun x hx => hst x (by simp [hx])
      simp only [drainLoopS]
      by_cases hconn : t.conn = false
      · rw [if_pos hconn]
        exact ⟨[], by simp, by simp [dispatchAllS]⟩
      · rw [if_neg hconn]
        by_cases hskip : trim (applyStyle t.style raw) = []
        · rw [if_pos hskip]
          obtain ⟨pre, h1, h2⟩ := ih ts hts2
          refine ⟨raw :: pre, by rw [List.cons_append, ← h1], ?_⟩
          rw [h2, dispatchAllS, dispatchAllS, List.filterMap_cons]
          rw [hts] at hskip
          rw [if_pos hskip]
        · rw [if_neg hskip]
          by_cases hsend : t.sendOk = false
          · rw [if_pos hsend]
            exact ⟨[], by simp, by simp [dispatchAllS]⟩
          · rw [if_neg hsend]
            obtain ⟨pre, h1, h2⟩ := ih ts hts2
            refine ⟨raw :: pre, by simpa using h1, ?_⟩
            simp only []
            rw [h2, dispatchAllS, dispatchAllS, List.filterMap_cons]
            rw [hts] at hskip ⊢
            rw [if_neg hskip]

theorem drainLoopS_gate (t : Tick) (ts : List Tick) (q : List Str)
    (hconn : t.conn = false) :
    drainLoopS (t :: ts) q = ⟨[], [], q, false⟩ := by
  cases q with
  | nil => rfl
  | cons raw rest =>
    simp only [drainLoopS]
    rw [if_pos hconn]

theorem drainLoopS_count (ticks : List Tick) (q : List Str)
    (hq : ∀ s ∈ q, trim s ≠ []) :
    (drainLoopS ticks q).sent.length + (drainLoopS ticks q).queue.length
      = q.length := by
  induction q generalizing ticks with
  | nil => simp [drainLoopS]
  | cons raw rest ih =>
    rcases ticks with _ | ⟨t, ts⟩
    · simp [drainLoopS]
    · simp only [drainLoopS]
      by_cases hconn : t.conn = false
      · rw [if_pos hconn]; simp
      · rw [if_neg hconn]
        have hskip : trim (applyStyle t.style raw) ≠ [] :=
          applyStyle_trim_ne _ _ (hq raw (by simp))
        rw [if_neg hskip]
        by_cases hsend : t.sendOk = false
        · rw [if_pos hsend]; simp
        · rw [if_neg hsend]
          have h := ih ts (fun s hs => hq s (by simp [hs]))
          simp only [List.length_cons]
          omega

theorem drainLoopS_sendErr (t : Tick) (ts : List Tick) (raw : Str)
    (rest : List Str) (hconn : t.conn = true)
    (hskip : trim (applyStyle t.style raw) ≠ []) (hsend : t.sendOk = false) :
    drainLoopS (t :: ts) (raw :: rest) = ⟨[], [], raw :: rest, true⟩ := by
  simp only [drainLoopS]
  rw [if_neg (by simp [hconn]), if_neg hskip, if_pos hsend]

theorem drainLoopP_complete (q : List Str) (style : Style) (j : ℚ) :
    drainLoopP (List.replicate q.length (okTick style j)) q
      = ⟨dispatchAllP style q, delaysAllP style q, [], false⟩ := by
  induction q with
  | nil => rfl
  | cons raw rest ih =>
    rw [List.length_cons, List.replicate_succ]
    simp only [drainLoopP, okTick]
    simp only [okTick] at ih
    rw [if_neg (by simp)]
    by_cases hskip : trim (if raw = ctMark then raw else applyStyle style raw) = []
    · rw [if_pos hskip, ih]
      simp [dispatchAllP, delaysAllP, List.filterMap_cons, hskip]
    · rw [if_neg hskip, if_neg (by simp), ih]
      simp [dispatchAllP, delaysAllP, List.filterMap_cons, hskip]

theorem pushWithMarkers_eq (segs : List Str) (queue : List Str) (count : Nat) :
    pushWithMarkers queue count segs
      = (queue ++ withMarkers count segs, count + segs.length) := by
  induction segs generalizing queue count with
  | nil => simp [pushWithMarkers, withMarkers]
  | cons seg rest ih =>
    simp only [pushWithMarkers]
    by_cases hm : (count + 1) % 3 = 0
    · rw [if_pos ⟨by omega, hm⟩, ih]
      rw [withMarkers, if_pos hm]
      refine Prod.ext ?_ ?_
      · simp [List.append_assoc]
      · simp only [List.length_cons]
        omega
    · rw [if_neg (by simp [hm]), ih]
      rw [withMarkers, if_neg hm]
      refine Prod.ext ?_ ?_
      · simp [List.append_assoc]
      · simp only [List.length_cons]
        omega

theorem withMarkers_append (n : Nat) (l1 l2 : List Str) :
    withMarkers n (l1 ++ l2)
      = withMarkers n l1 ++ withMarkers (n + l1.length) l2 := by
  induction l1 generalizing n with
  | nil => simp [withMarkers]
  | cons s rest ih =>
    rw [List.cons_append, withMarkers, withMarkers]
    by_cases hm : (n + 1) % 3 = 0
    · rw [if_pos hm, if_pos hm, ih (n + 1)]
      simp only [List.length_cons, List.cons_append]
      have : n + 1 + rest.length = n + (rest.length + 1) := by omega
      rw [this]
    · rw [if_neg hm, if_neg hm, ih (n + 1)]
      simp only [List.length_cons, List.cons_append]
      have : n + 1 + rest.length = n + (rest.length + 1) := by omega
      rw [this]

theorem pushWithMarkers_foldl (ls : List (List Str)) (q0 : List Str) (n0 : Nat) :
    ls.foldl (fun acc segs => pushWithMarkers acc.1 acc.2 segs) (q0, n0)
      = (q0 ++ withMarkers n0 ls.flatten, n0 + ls.flatten.length) := by
  induction ls generalizing q0 n0 with
  | nil => simp [withMarkers]
  | cons segs rest ih =>
    rw [List.foldl_cons, pushWithMarkers_eq, ih]
    rw [List.flatten_cons, withMarkers_append]
    refine Prod.ext ?_ ?_
    · simp [List.append_assoc]
    · simp only [List.length_append]
      omega

theorem processNewData_skip_empty (d : Transcript) (s : BridgeState)
    (he : d.full_transcript_text = []) : processNewData d s = s := by
  rw [processNewData, if_pos he]

theorem processNewData_skip (d : Transcript) (s : BridgeState)
    (hid : s.lastProcessedId = some d.id) : processNewData d s = s := by
  rw [processNewData]
  by_cases he : d.full_transcript_text = []
  · rw [if_pos he]
  · rw [if_neg he, if_pos hid]

theorem processNewData_ingest (d : Transcript) (s : BridgeState)
    (he : d.full_transcript_text ≠ []) (hid : s.lastProcessedId ≠ some d.id) :
    processNewData d s
      = ⟨some d.id, s.turns ++ [mkTurn d.full_transcript_text],
          s.queue ++ segmentText d.full_transcript_text⟩ := by
  rw [processNewData, if_neg he, if_neg hid]
  by_cases hseg : segmentText d.full_transcript_text = []
  · simp [hseg]
  · simp [hseg]

theorem processNewDataP_ingest (d : Transcript) (s : BridgeStateP)
    (he : d.full_transcript_text ≠ []) (hid : s.lastProcessedId ≠ some d.id) :
    processNewDataP d s
      = ⟨some d.id, s.turns ++ [mkTurn d.full_transcript_text],
          s.queue ++ withMarkers s.paragraphCount (segmentTextP d.full_transcript_text),
          s.paragraphCount + (segmentTextP d.full_transcript_text).length⟩ := by
  rw [processNewDataP, if_neg he, if_neg hid]
  by_cases hseg : segmentTextP d.full_transcript_text = []
  · simp [hseg, withMarkers]
  · simp [hseg, pushWithMarkers_eq]

/-- C1: ingestion is deduplicated against the stored ProcessedRecordId:
when the arriving record's id equals `lastProcessedIdRef.current`, the call
is a no-op (no transcript-log entry, no enqueue); hence feeding the same
record twice in a row appends exactly one transcript-log entry and appends
its segments to the queue exactly once. -/
theorem c1_dedup_idempotent (s : BridgeState) (d : Transcript) :
    (s.lastProcessedId = some d.id → processNewData d s = s)
    ∧ (d.full_transcript_text ≠ [] → s.lastProcessedId ≠ some d.id →
        processNewData d (processNewData d s) = processNewData d s
        ∧ (processNewData d s).turns = s.turns ++ [mkTurn d.full_transcript_text]
        ∧ (processNewData d s).queue
            = s.queue ++ segmentText d.full_transcript_text) := by
  constructor
  · intro h
    exact processNewData_skip d s h
  · intro he hid
    have h1 := processNewData_ingest d s he hid
    refine ⟨?_, by rw [h1], by rw [h1]⟩
    apply processNewData_skip
    rw [h1]

/-- Witness for C1 at a concrete record and the empty bridge state. -/
theorem c1_witness :
    processNewData ⟨"r1".data, "Hi.".data⟩
        (processNewData ⟨"r1".data, "Hi.".data⟩ ⟨none, [], []⟩)
      = processNewData ⟨"r1".data, "Hi.".data⟩ ⟨none, [], []⟩
    ∧ (processNewData ⟨"r1".data, "Hi.".data⟩ ⟨none, [], []⟩).turns
        = ([] : List Turn) ++ [mkTurn "Hi.".data]
    ∧ (processNewData ⟨"r1".data, "Hi.".data⟩ ⟨none, [], []⟩).queue
        = ([] : List Str) ++ segmentText "Hi.".data :=
  (c1_dedup_idempotent ⟨none, [], []⟩ ⟨"r1".data, "Hi.".data⟩).2
    (by decide) (by decide)

/-- C9: paragraph-mode segmentation splits on runs of newline boundaries,
trims each piece, drops empty pieces and preserves order; in particular the
spec's scenario input yields exactly its two lines, every emitted piece is
trimmed and non-empty, and the non-whitespace content of the input is
reproduced in order. -/
theorem c9_paragraph_split (t : Str) :
    segmentTextP "Line one\n\nLine two\n".data
        = ["Line one".data, "Line two".data]
    ∧ (∀ s ∈ segmentTextP t, trim s = s ∧ s ≠ [])
    ∧ noWs (segmentTextP t).flatten = noWs t :=
  ⟨by decide, fun s hs => segmentTextP_mem t s hs, segmentTextP_noWs t⟩

/-- Witness for C9 at the spec's scenario input. -/
theorem c9_witness :
    segmentTextP "Line one\n\nLine two\n".data
        = ["Line one".data, "Line two".data]
    ∧ (trim "Line one".data = "Line one".data ∧ "Line one".data ≠ [])
    ∧ noWs (segmentTextP "Line one\n\nLine two\n".data).flatten
        = noWs "Line one\n\nLine two\n".data :=
  have h := c9_paragraph_split "Line one\n\nLine two\n".data
  ⟨h.1, h.2.1 "Line one".data (by decide), h.2.2⟩

/-- C10: deduplication compares only against the single most recently
processed record id: after ingesting A then B (with different ids), a
repeated A is not suppressed — a second transcript-log entry for A is
appended and A's segments are enqueued a second time, in both the sentence
variant and the paragraph-with-markers variant. -/
theorem c10_dedup_last_only (a b : Transcript) (s : BridgeState)
    (sp : BridgeStateP) (hab : a.id ≠ b.id)
    (ha : a.full_transcript_text ≠ []) (hb : b.full_transcript_text ≠ [])
    (hs : s.lastProcessedId ≠ some a.id)
    (hsp : sp.lastProcessedId ≠ some a.id) :
    ((processNewData a (processNewData b (processNewData a s))).turns
        = (processNewData b (processNewData a s)).turns
            ++ [mkTurn a.full_transcript_text]
      ∧ (processNewData a (processNewData b (processNewData a s))).queue
          = (processNewData b (processNewData a s)).queue
              ++ segmentText a.full_transcript_text
      ∧ (processNewData a (processNewData b (processNewData a s))).lastProcessedId
          = some a.id)
    ∧ (processNewDataP a (processNewDataP b (processNewDataP a sp))).turns
        = (processNewDataP b (processNewDataP a sp)).turns
            ++ [mkTurn a.full_transcript_text] := by
  constructor
  · have h1 := processNewData_ingest a s ha hs
    have h2cond : (processNewData a s).lastProcessedId ≠ some b.id := by
      rw [h1]
      exact fun hx => hab (Option.some.inj hx)
    have h2 := processNewData_ingest b (processNewData a s) hb h2cond
    have h3cond :
        (processNewData b (processNewData a s)).lastProcessedId ≠ some a.id := by
      rw [h2]
      exact fun hx => hab (Option.some.inj hx).symm
    have h3 := processNewData_ingest a _ ha h3cond
    rw [h3]
    exact ⟨rfl, rfl, rfl⟩
  · have h1 := processNewDataP_ingest a sp ha hsp
    have h2cond : (processNewDataP a sp).lastProcessedId ≠ some b.id := by
      rw [h1]
      exact fun hx => hab (Option.some.inj hx)
    have h2 := processNewDataP_ingest b (processNewDataP a sp) hb h2cond
    have h3cond :
        (processNewDataP b (processNewDataP a sp)).lastProcessedId ≠ some a.id := by
      rw [h2]
      exact fun hx => hab (Option.some.inj hx).symm
    have h3 := processNewDataP_ingest a _ ha h3cond
    rw [h3]

/-- Witness for C10 at concrete records A, B and empty bridge states. -/
theorem c10_witness :
    ((processNewData ⟨"A".data, "One.".data⟩
          (processNewData ⟨"B".data, "Two.".data⟩
            (processNewData ⟨"A".data, "One.".data⟩ ⟨none, [], []⟩))).turns
        = (processNewData ⟨"B".data, "Two.".data⟩
            (processNewData ⟨"A".data, "One.".data⟩ ⟨none, [], []⟩)).turns
            ++ [mkTurn "One.".data]
      ∧ (processNewData ⟨"A".data, "One.".data⟩
          (processNewData ⟨"B".data, "Two.".data⟩
            (processNewData ⟨"A".data, "One.".data⟩ ⟨none, [], []⟩))).queue
          = (processNewData ⟨"B".data, "Two.".data⟩
              (processNewData ⟨"A".data, "One.".data⟩ ⟨none, [], []⟩)).queue
              ++ segmentText "One.".data
      ∧ (processNewData ⟨"A".data, "One.".data⟩
          (processNewData ⟨"B".data, "Two.".data⟩
            (processNewData ⟨"A".data, "One.".data⟩ ⟨none, [], []⟩))).lastProcessedId
          = some "A".data)
    ∧ (processNewDataP ⟨"A".data, "One.".data⟩
          (processNewDataP ⟨"B".data, "Two.".data⟩
            (processNewDataP ⟨"A".data, "One.".data⟩ ⟨none, [], [], 0⟩))).turns
        = (processNewDataP ⟨"B".data, "Two.".data⟩
            (processNewDataP ⟨"A".data, "One.".data⟩ ⟨none, [], [], 0⟩)).turns
            ++ [mkTurn "One.".data] :=
  c10_dedup_last_only ⟨"A".data, "One.".data⟩ ⟨"B".data, "Two.".data⟩
    ⟨none, [], []⟩ ⟨none, [], [], 0⟩
    (by decide) (by decide) (by decide) (by decide) (by decide)

/-- C2: the queue is strictly FIFO: ingestion appends a record's segments at
the tail in split order, and a connected, error-free drain of `q1 ++ q2`
dispatches all of `q1`'s segments (in order) before any of `q2`'s and ends
with an empty queue. -/
theorem c2_fifo_order (style : Style) (j : ℚ) (q1 q2 : List Str)
    (s : BridgeState) (d : Transcript) :
    (drainLoopS (List.replicate (q1.length + q2.length) (okTick style j))
        (q1 ++ q2)).sent
        = dispatchAllS style q1 ++ dispatchAllS style q2
    ∧ (drainLoopS (List.replicate (q1.length + q2.length) (okTick style j))
        (q1 ++ q2)).queue = []
    ∧ (d.full_transcript_text ≠ [] → s.lastProcessedId ≠ some d.id →
        (processNewData d s).queue
          = s.queue ++ segmentText d.full_transcript_text) := by
  have hlen : q1.length + q2.length = (q1 ++ q2).length :=
    (List.length_append _ _).symm
  refine ⟨?_, ?_, fun he hid => by rw [processNewData_ingest d s he hid]⟩
  · rw [hlen, drainLoopS_complete]
    simp [dispatchAllS, List.filterMap_append]
  · rw [hlen, drainLoopS_complete]

/-- Witness for C2 at two concrete one-segment queues and a concrete
record. -/
theorem c2_witness :
    (drainLoopS (List.replicate
          ((["One.".data] : List Str).length + (["Two.".data] : List Str).length)
          (okTick Style.neutral 0)) (["One.".data] ++ ["Two.".data])).sent
        = dispatchAllS Style.neutral ["One.".data]
            ++ dispatchAllS Style.neutral ["Two.".data]
    ∧ (drainLoopS (List.replicate
          ((["One.".data] : List Str).length + (["Two.".data] : List Str).length)
          (okTick Style.neutral 0)) (["One.".data] ++ ["Two.".data])).queue = []
    ∧ (processNewData ⟨"r2".data, "Hello.".data⟩ ⟨none, [], []⟩).queue
        = ([] : List Str) ++ segmentText "Hello.".data :=
  have h := c2_fifo_order Style.neutral 0 ["One.".data] ["Two.".data]
    ⟨none, [], []⟩ ⟨"r2".data, "Hello.".data⟩
  ⟨h.1, h.2.1, h.2.2 (by decide) (by decide)⟩

/-- C5: when the gate reports not-connected at the start of an iteration the
drain loop halts before dispatching, leaving the whole queue in place; and
for any run over a queue of non-blank segments, dispatched plus remaining
segments account for the entire queue — nothing is dropped. -/
theorem c5_gate_halt_no_loss (t : Tick) (ts ticks : List Tick) (q : List Str) :
    (t.conn = false → drainLoopS (t :: ts) q = ⟨[], [], q, false⟩)
    ∧ ((∀ s ∈ q, trim s ≠ []) →
        (drainLoopS ticks q).sent.length + (drainLoopS ticks q).queue.length
          = q.length) :=
  ⟨fun h => drainLoopS_gate t ts q h, fun h => drainLoopS_count ticks q h⟩

/-- Witness for C5: a closed gate preserves a concrete two-segment queue,
and a one-iteration run dispatches one segment and keeps the other. -/
theorem c5_witness :
    drainLoopS (⟨false, Style.neutral, true, 0⟩ :: [])
        ["One.".data, "Two.".data]
        = ⟨[], [], ["One.".data, "Two.".data], false⟩
    ∧ (drainLoopS [okTick Style.neutral 0] ["One.".data, "Two.".data]).sent.length
        + (drainLoopS [okTick Style.neutral 0] ["One.".data, "Two.".data]).queue.length
        = (["One.".data, "Two.".data] : List Str).length :=
  have h := c5_gate_halt_no_loss ⟨false, Style.neutral, true, 0⟩ []
    [okTick Style.neutral 0] ["One.".data, "Two.".data]
  ⟨h.1 rfl, h.2 (by decide)⟩

/-- C8: a drain-loop iteration that throws ends the run at the loop's outer
boundary: the queue splits into the fully processed prefix (whose
non-blank segments were sent, in order) and the untouched remainder headed
by the failing segment; a later error-free run over the remainder dispatches
exactly the rest, so the two runs together dispatch each queue position at
most once; and the wrapper's `finally` clears the draining flag while its
`catch` logs the error, leaving the remaining queue in place. -/
theorem c8_exception_boundary (ticks : List Tick) (q : List Str)
    (style : Style) (j : ℚ) (s : SysState)
    (hst : ∀ t ∈ ticks, t.style = style) :
    (∃ pre, q = pre ++ (drainLoopS ticks q).queue
      ∧ (drainLoopS ticks q).sent = dispatchAllS style pre
      ∧ (drainLoopS ticks q).sent
          ++ (drainLoopS
              (List.replicate (drainLoopS ticks q).queue.length (okTick style j))
              (drainLoopS ticks q).queue).sent
          = dispatchAllS style q)
    ∧ (∀ (t : Tick) (ts : List Tick) (raw : Str) (rest : List Str),
        t.conn = true → trim (applyStyle t.style raw) ≠ [] → t.sendOk = false →
        drainLoopS (t :: ts) (raw :: rest) = ⟨[], [], raw :: rest, true⟩)
    ∧ (s.isProcessing = false →
        (processQueueLoopS ticks s).1.isProcessing = false
        ∧ (processQueueLoopS ticks s).1.queue = (drainLoopS ticks s.queue).queue
        ∧ ((drainLoopS ticks s.queue).errored = true →
            (processQueueLoopS ticks s).1.errorLogged = s.errorLogged + 1)) := by
  refine ⟨?_, fun t ts raw rest h1 h2 h3 => drainLoopS_sendErr t ts raw rest h1 h2 h3, ?_⟩
  · obtain ⟨pre, hq, hsent⟩ := drainLoopS_split ticks q style hst
    refine ⟨pre, hq, hsent, ?_⟩
    rw [hsent, drainLoopS_complete]
    conv_rhs => rw [hq]
    simp [dispatchAllS, List.filterMap_append]
  · intro hip
    rw [processQueueLoopS, if_neg (by simp [hip])]
    exact ⟨rfl, rfl, fun herr => by simp [herr]⟩

/-- Witness for C8 at a concrete queue whose second iteration's send
throws. -/
theorem c8_witness :
    (∃ pre, ["One two.".data, "Three.".data, "Four.".data] = pre
        ++ (drainLoopS [okTick Style.neutral 0, ⟨true, Style.neutral, false, 0⟩]
            ["One two.".data, "Three.".data, "Four.".data]).queue
      ∧ (drainLoopS [okTick Style.neutral 0, ⟨true, Style.neutral, false, 0⟩]
            ["One two.".data, "Three.".data, "Four.".data]).sent
          = dispatchAllS Style.neutral pre
      ∧ (drainLoopS [okTick Style.neutral 0, ⟨true, Style.neutral, false, 0⟩]
            ["One two.".data, "Three.".data, "Four.".data]).sent
          ++ (drainLoopS
              (List.replicate
                (drainLoopS [okTick Style.neutral 0, ⟨true, Style.neutral, false, 0⟩]
                  ["One two.".data, "Three.".data, "Four.".data]).queue.length
                (okTick Style.neutral 0))
              (drainLoopS [okTick Style.neutral 0, ⟨true, Style.neutral, false, 0⟩]
                ["One two.".data, "Three.".data, "Four.".data]).queue).sent
          = dispatchAllS Style.neutral
              ["One two.".data, "Three.".data, "Four.".data])
    ∧ drainLoopS [⟨true, Style.neutral, false, 0⟩] ["Three.".data, "Four.".data]
        = ⟨[], [], ["Three.".data, "Four.".data], true⟩
    ∧ ((processQueueLoopS [okTick Style.neutral 0, ⟨true, Style.neutral, false, 0⟩]
          ⟨["One two.".data, "Three.".data, "Four.".data], false, 0⟩).1.isProcessing
          = false
      ∧ (processQueueLoopS [okTick Style.neutral 0, ⟨true, Style.neutral, false, 0⟩]
          ⟨["One two.".data, "Three.".data, "Four.".data], false, 0⟩).1.queue
          = (drainLoopS [okTick Style.neutral 0, ⟨true, Style.neutral, false, 0⟩]
              ["One two.".data, "Three.".data, "Four.".data]).queue
      ∧ (processQueueLoopS [okTick Style.neutral 0, ⟨true, Style.neutral, false, 0⟩]
          ⟨["One two.".data, "Three.".data, "Four.".data], false, 0⟩).1.errorLogged
          = 0 + 1) :=
  have h := c8_exception_boundary
    [okTick Style.neutral 0, ⟨true, Style.neutral, false, 0⟩]
    ["One two.".data, "Three.".data, "Four.".data] Style.neutral 0
    ⟨["One two.".data, "Three.".data, "Four.".data], false, 0⟩ (by decide)
  have h3 := h.2.2 rfl
  ⟨h.1, h.2.1 ⟨true, Style.neutral, false, 0⟩ [] "Three.".data ["Four.".data]
      rfl (by decide) rfl,
    h3.1, h3.2.1, h3.2.2 (by decide)⟩

/-- C4: in the paragraph-with-markers variant, a `(clears throat)` marker is
enqueued immediately after every 3rd non-marker segment, counted cumulatively
across all records ingested in a session (the counter is not reset per
record): enqueuing any sequence of records' segment lists from counter 0
yields the flattened segments with the marker after exactly those whose
cumulative ordinal is divisible by 3, and one ingestion continues from the
session counter. -/
theorem c4_marker_every_third (ls : List (List Str)) (q0 : List Str)
    (s : BridgeStateP) (d : Transcript) :
    ls.foldl (fun acc segs => pushWithMarkers acc.1 acc.2 segs) (q0, 0)
        = (q0 ++ withMarkers 0 ls.flatten, ls.flatten.length)
    ∧ (d.full_transcript_text ≠ [] → s.lastProcessedId ≠ some d.id →
        (processNewDataP d s).queue
            = s.queue ++ withMarkers s.paragraphCount
                (segmentTextP d.full_transcript_text)
        ∧ (processNewDataP d s).paragraphCount
            = s.paragraphCount + (segmentTextP d.full_transcript_text).length) := by
  refine ⟨?_, fun he hid => ?_⟩
  · have h := pushWithMarkers_foldl ls q0 0
    simpa using h
  · rw [processNewDataP_ingest d s he hid]
    exact ⟨rfl, rfl⟩

/-- Witness for C4: two records of two paragraphs each get one marker after
the cumulative 3rd paragraph, and an ingestion at session counter 2 places a
marker right after its first segment. -/
theorem c4_witness :
    ([["A1".data, "A2".data], ["B1".data, "B2".data]] : List (List Str)).foldl
        (fun acc segs => pushWithMarkers acc.1 acc.2 segs) (([] : List Str), 0)
        = (([] : List Str) ++ withMarkers 0
            ([["A1".data, "A2".data], ["B1".data, "B2".data]] : List (List Str)).flatten,
          ([["A1".data, "A2".data], ["B1".data, "B2".data]] : List (List Str)).flatten.length)
    ∧ (processNewDataP ⟨"p1".data, "Para one.\nPara two.".data⟩
          ⟨none, [], [], 2⟩).queue
        = ([] : List Str) ++ withMarkers 2 (segmentTextP "Para one.\nPara two.".data)
    ∧ (processNewDataP ⟨"p1".data, "Para one.\nPara two.".data⟩
          ⟨none, [], [], 2⟩).paragraphCount
        = 2 + (segmentTextP "Para one.\nPara two.".data).length :=
  have h := c4_marker_every_third [["A1".data, "A2".data], ["B1".data, "B2".data]]
    [] ⟨none, [], [], 2⟩ ⟨"p1".data, "Para one.\nPara two.".data⟩
  have h2 := h.2 (by decide) (by decide)
  ⟨h.1, h2.1, h2.2⟩

set_option maxRecDepth 4000 in
/-- C3 counterexample: at a chunk of exactly 150 characters after 2
sentences, the claim's "at least 150 characters" rule flushes, but the code
(`currentChunk.length > 150`) does not — the chunkers disagree on a concrete
sentence list (the claim yields 2 chunks, the code 1 chunk, whose chunk
absorbs a 3rd sentence). -/
theorem c3_counterexample :
    claimChunkSentences
        [List.replicate 73 'a' ++ ['.'], List.replicate 74 'b' ++ ['.'], "End.".data]
      ≠ chunkSentences
        [List.replicate 73 'a' ++ ['.'], List.replicate 74 'b' ++ ['.'], "End.".data]
    ∧ (claimChunkSentences
        [List.replicate 73 'a' ++ ['.'], List.replicate 74 'b' ++ ['.'], "End.".data]).length = 2
    ∧ (chunkSentences
        [List.replicate 73 'a' ++ ['.'], List.replicate 74 'b' ++ ['.'], "End.".data]).length = 1 := by
  decide

/-- C3 (amended): in SentenceMode the chunker accumulates sentences and
flushes exactly when, after adding a sentence, the chunk has at least 2
sentences and MORE THAN 150 characters, or at least 3 sentences, or more
than 250 characters: it equals the greedy grouping by that flush condition;
hence every chunk is built from at most 3 sentences (no chunk contains a
4th), every emitted chunk is trimmed and non-empty, the groups partition the
clean sentences in order, and the trailing partial chunk is always emitted
(no content dropped). -/
theorem c3_amended_chunking (ss : List Str) :
    chunkSentences ss = (groupGo [] (cleanOf ss)).map joinSp
    ∧ (∀ g ∈ groupGo [] (cleanOf ss), g ≠ [] ∧ g.length ≤ 3)
    ∧ (groupGo [] (cleanOf ss)).flatten = cleanOf ss
    ∧ (∀ c ∈ chunkSentences ss, trim c = c ∧ c ≠ [])
    ∧ noWs (chunkSentences ss).flatten = noWs ss.flatten :=
  ⟨chunkSentences_eq_groups ss,
   groupGo_sizes (cleanOf ss) [] (by simp),
   by simpa using groupGo_flatten (cleanOf ss) [],
   fun c hc => chunkSentences_mem ss c hc,
   chunkSentences_noWs ss⟩

/-- Witness for C3 at the spec's three-sentence scenario. -/
theorem c3_witness :
    chunkSentences
        ["Hello there.".data, "How are you?".data, "Fine, thanks.".data]
        = (groupGo [] (cleanOf
            ["Hello there.".data, "How are you?".data, "Fine, thanks.".data])).map joinSp
    ∧ ((["Hello there.".data, "How are you?".data, "Fine, thanks.".data] : List Str) ≠ []
        ∧ (["Hello there.".data, "How are you?".data, "Fine, thanks.".data] : List Str).length ≤ 3)
    ∧ (trim "Hello there. How are you? Fine, thanks.".data
          = "Hello there. How are you? Fine, thanks.".data
        ∧ "Hello there. How are you? Fine, thanks.".data ≠ []) :=
  have h := c3_amended_chunking
    ["Hello there.".data, "How are you?".data, "Fine, thanks.".data]
  ⟨h.1,
   h.2.1 ["Hello there.".data, "How are you?".data, "Fine, thanks.".data] (by decide),
   h.2.2.2.1 "Hello there. How are you? Fine, thanks.".data (by decide)⟩

/-- C6 counterexample: on the regex-fallback path of SentenceMode, the input
`".a"` segments to `["a"]` — the leading `'.'`, a non-whitespace character,
is dropped, so concatenating the segments does not reproduce the
non-whitespace content of the input. -/
theorem c6_counterexample :
    segmentText ".a".data = ["a".data]
    ∧ noWs (segmentText ".a".data).flatten ≠ noWs ".a".data := by
  decide

/-- C6 (amended): segmentation is lossless over non-whitespace content in
ParagraphMode for every input, and in SentenceMode whenever the sentence
splitting covers the input (the `Intl.Segmenter` contract: the sentences
concatenate back to the text).  On the regex-fallback path the segments are
still an in-order subsequence of the input's non-whitespace content (nothing
is duplicated or reordered) and every non-whitespace character other than
the sentence terminators `.`, `!`, `?` is preserved; only stray terminator
characters can be dropped. -/
theorem c6_amended_lossless (t : Str) (ss : List Str) :
    noWs (segmentTextP t).flatten = noWs t
    ∧ (ss.flatten = t → noWs (chunkSentences ss).flatten = noWs t)
    ∧ List.Sublist (noWs (segmentText t).flatten) (noWs t)
    ∧ (noWs (segmentText t).flatten).filter (fun c => !isTerm c)
        = (noWs t).filter (fun c => !isTerm c) :=
  ⟨segmentTextP_noWs t,
   fun h => by rw [chunkSentences_noWs, h],
   segmentText_noWs_sublist t,
   segmentText_filter_keep t⟩

/-- Witness for C6 at a concrete text with a covering sentence split. -/
theorem c6_witness :
    noWs (segmentTextP "Hello. World.".data).flatten = noWs "Hello. World.".data
    ∧ noWs (chunkSentences ["Hello. ".data, "World.".data]).flatten
        = noWs "Hello. World.".data
    ∧ List.Sublist (noWs (segmentText "Hello. World.".data).flatten)
        (noWs "Hello. World.".data)
    ∧ (noWs (segmentText "Hello. World.".data).flatten).filter (fun c => !isTerm c)
        = (noWs "Hello. World.".data).filter (fun c => !isTerm c) :=
  have h := c6_amended_lossless "Hello. World.".data
    ["Hello. ".data, "World.".data]
  ⟨h.1, h.2.1 (by decide), h.2.2.1, h.2.2.2⟩

theorem splitWsA_true_of_head (w : Str) (c : Char) (t : Str) (hw : w = c :: t)
    (hc : c.isWhitespace = false) : splitWsA w true = splitWsA w false := by
  subst hw
  simp [splitWsA, hc]

theorem wordCount_rawOfWords (n : Nat) : wordCount (rawOfWords n) = n + 1 := by
  induction n with
  | zero => rfl
  | succ m ih =>
    have hhead : ∃ t, rawOfWords m = 'a' :: t := by
      cases m <;> exact ⟨_, rfl⟩
    obtain ⟨t, ht⟩ := hhead
    rw [wordCount] at ih ⊢
    rw [rawOfWords]
    rw [show splitWsA ('a' :: ' ' :: rawOfWords m) false
        = consHead 'a' ([] :: splitWsA (rawOfWords m) true) from by
      simp [splitWsA]]
    rw [splitWsA_true_of_head (rawOfWords m) 'a' t ht (by decide)]
    simp only [consHead, List.length_cons]
    omega

theorem delayS_rawOfWords (n : Nat) :
    delayS Style.natural (rawOfWords n) 0 = ((n : ℚ) + 1) * (2500 / 7) + 1000 := by
  rw [delayS, wordCount_rawOfWords, bufS]
  push_cast
  ring_nf

/-- C7 counterexample: the claim's delay formula
`min(capMs, wordCount/speechRate * 1000 * dampingFactor) + (styleBufferBase
+ jitter)` with a bounded jitter cannot describe the sentence-variant drain
loop for any choice of parameters: that loop's delay
(`wordCount/2.8*1000 + buffer + jitter`, here with jitter oracle 0) grows
without bound in the word count, while any capped formula is bounded. -/
theorem c7_counterexample :
    ¬ ∃ capMs speechRate damping buf jbound : ℚ,
        0 < speechRate ∧ 0 < damping ∧ 0 ≤ jbound ∧
        ∀ n : ℕ, ∃ jv : ℚ, 0 ≤ jv ∧ jv < jbound ∧
          delayS Style.natural (rawOfWords n) 0
            = min capMs
                ((wordCount (rawOfWords n) : ℚ) / speechRate * 1000 * damping)
              + (buf + jv) := by
  rintro ⟨cap, rate, df, buf, J, hr, hd, hJ, h⟩
  obtain ⟨n, hn⟩ := exists_nat_gt (cap + buf + J)
  obtain ⟨jv, hj0, hjJ, heq⟩ := h n
  rw [delayS_rawOfWords n] at heq
  have hmin : min cap ((wordCount (rawOfWords n) : ℚ) / rate * 1000 * df) ≤ cap :=
    min_le_left _ _
  have h1 : ((n : ℚ) + 1) * (2500 / 7) ≥ (n : ℚ) + 1 := by
    nlinarith [Nat.cast_nonneg (α := ℚ) n]
  linarith

/-- C7 (amended): the inter-segment delays are per variant.  In the
sentence variant every dispatched segment waits
`wordCount/2.8 * 1000 + (styleBufferBase + jitter)` with no cap or damping;
in the paragraph-with-markers variant a marker segment waits a fixed
1500 ms and a normal segment waits
`min(5000, wordCount/3 * 1000 * 0.5) + styleBufferBase` with no jitter.  In
both, the word count is computed on the original pre-style-wrap text, as the
loop-level delay sequences show. -/
theorem c7_amended_delays (style : Style) (j : ℚ) (q : List Str) :
    (drainLoopS (List.replicate q.length (okTick style j)) q).delays
        = delaysAllS style j q
    ∧ (drainLoopP (List.replicate q.length (okTick style j)) q).delays
        = delaysAllP style q
    ∧ (∀ raw : Str, delayS style raw j
        = (wordCount raw : ℚ) / (14 / 5) * 1000 + (bufS style + j * 1000))
    ∧ delayP style ctMark = 1500
    ∧ (∀ raw : Str, raw ≠ ctMark →
        delayP style raw
          = min 5000 ((wordCount raw : ℚ) / 3 * 1000 * (1 / 2)) + bufP style) := by
  refine ⟨?_, ?_, ?_, ?_, ?_⟩
  · rw [drainLoopS_complete]
  · rw [drainLoopP_complete]
  · intro raw
    rw [delayS]
    norm_num
  · rw [delayP, if_pos rfl]
  · intro raw hraw
    rw [delayP, if_neg hraw]
    norm_num

/-- Witness for C7 at a concrete two-segment queue containing the marker. -/
theorem c7_witness :
    (drainLoopS (List.replicate (["Hi there.".data, ctMark] : List Str).length
          (okTick Style.neutral 0)) ["Hi there.".data, ctMark]).delays
        = delaysAllS Style.neutral 0 ["Hi there.".data, ctMark]
    ∧ (drainLoopP (List.replicate (["Hi there.".data, ctMark] : List Str).length
          (okTick Style.neutral 0)) ["Hi there.".data, ctMark]).delays
        = delaysAllP Style.neutral ["Hi there.".data, ctMark]
    ∧ delayS Style.neutral "Hi there.".data 0
        = (wordCount "Hi there.".data : ℚ) / (14 / 5) * 1000
          + (bufS Style.neutral + 0 * 1000)
    ∧ delayP Style.neutral ctMark = 1500
    ∧ delayP Style.neutral "Hi there.".data
        = min 5000 ((wordCount "Hi there.".data : ℚ) / 3 * 1000 * (1 / 2))
          + bufP Style.neutral :=
  have h := c7_amended_delays Style.neutral 0 ["Hi there.".data, ctMark]
  ⟨h.1, h.2.1, h.2.2.1 "Hi there.".data, h.2.2.2.1,
    h.2.2.2.2 "Hi there.".data (by decide)⟩

example : segmentTextP "Line one\n\nLine two\n".data = ["Line one".data, "Line two".data] := by decide

example : wordCount "One two.".data = 2 := by decide
example : wordCount "".data = 1 := by decide
example : wordCount " a".data = 2 := by decide
example : segmentText "Hello there. How are you? Fine, thanks.".data
    = ["Hello there. How are you? Fine, thanks.".data] := by decide
example : segmentText ".a".data = ["a".data] := by decide
